import Mathlib

/-
  Verification of the retrieval-augmented persona pipeline
  (vector index, retriever, PII scrubbing, hierarchical summarizer,
  speak pipeline, concurrency guard).

  Shallow embedding notes:
  - Machine floats are modelled by rationals; the float square root used by
    numpy norm computations is passed in as an explicit function argument
    together with hypotheses stating exactness on the inputs that occur.
  - Python regular expressions (re.sub / re.search over the two fixed PII
    patterns) are modelled by fixed-width scanners over character lists with
    explicit word-boundary tracking.  Word characters are modelled as ASCII
    alphanumerics plus underscore and digits as ASCII digits, matching the
    ASCII fragment of the Python semantics.
  - The numpy index backend is modelled (the faiss branch of the source is an
    optional accelerated backend behind the same interface).
-/

/- ===================== PII scrubbing (src/ingest/preprocess.py) ========= -/

/-- Word characters for the word-boundary semantics of the regex patterns. -/
def isWordChar (c : Char) : Bool := c.isAlphanum || c == '_'

/-- Word boundary on the left of a candidate match whose first character is a
word character: holds at the start of the string or after a non-word char.
The scanner threads the previous character as an option. -/
def wbBefore : Option Char → Bool
  | none => true
  | some c => !isWordChar c

/-- Word boundary on the right of a candidate match whose last character is a
word character: holds at the end of the string or before a non-word char. -/
def wbAfter : List Char → Bool
  | [] => true
  | c :: _ => !isWordChar c

/-- Matcher for the SSN-shaped pattern of PII_PATTERNS,
a backslash-b anchored ddd-dd-dddd, at the head of the list. -/
def ssnAt (prev : Option Char) (l : List Char) : Bool :=
  wbBefore prev &&
  match l with
  | a :: b :: c :: d :: e :: f :: g :: h :: i :: j :: k :: rest =>
    a.isDigit && b.isDigit && c.isDigit && d == '-' && e.isDigit && f.isDigit &&
    g == '-' && h.isDigit && i.isDigit && j.isDigit && k.isDigit && wbAfter rest
  | _ => false

/-- Matcher for the second pattern of PII_PATTERNS, a backslash-b anchored run
of exactly ten digits, at the head of the list. -/
def tenAt (prev : Option Char) (l : List Char) : Bool :=
  wbBefore prev &&
  match l with
  | a :: b :: c :: d :: e :: f :: g :: h :: i :: j :: rest =>
    a.isDigit && b.isDigit && c.isDigit && d.isDigit && e.isDigit && f.isDigit &&
    g.isDigit && h.isDigit && i.isDigit && j.isDigit && wbAfter rest
  | _ => false

/-- Replacement text used by scrub_pii. -/
def redactedL : List Char := ['[', 'R', 'E', 'D', 'A', 'C', 'T', 'E', 'D', ']']

/-- Model of re.sub for a fixed-width pattern: scan left to right; on a match
of width w+2 (the head character plus w+1 more) emit the replacement and
continue after the match, threading the last matched character as the
lookbehind character; otherwise copy one character.  ssnAt is used with w = 9
(width 11) and tenAt with w = 8 (width 10). -/
def subWF (w : Nat) (mat : Option Char → List Char → Bool) :
    Nat → Option Char → List Char → List Char
  | _, _, [] => []
  | 0, _, _ => []
  | fuel + 1, prev, c :: rest =>
    if mat prev (c :: rest) then
      redactedL ++ subWF w mat fuel (some (rest.getD w c)) (rest.drop (w + 1))
    else
      c :: subWF w mat fuel (some c) rest

/-- Wrapper running the scan with enough fuel for the whole input (one fuel
unit is spent per consumed head character, so the input length suffices). -/
def subW (w : Nat) (mat : Option Char → List Char → Bool) (prev : Option Char)
    (l : List Char) : List Char :=
  subWF w mat l.length prev l

/-- Model of re.search for a fixed-width pattern: true iff the matcher fires
at some position, threading the previous character. -/
def hasM (mat : Option Char → List Char → Bool) (prev : Option Char) :
    List Char → Bool
  | [] => false
  | c :: rest => mat prev (c :: rest) || hasM mat (some c) rest

/-- Model of scrub_pii: substitute the SSN-shaped pattern first, then the
ten-digit pattern, replacing each match with the redaction marker. -/
def scrub_pii (s : String) : String :=
  ⟨subW 8 tenAt none (subW 9 ssnAt none s.data)⟩

/-- Absence of both PII patterns from a string. -/
def noPII (s : String) : Prop :=
  hasM ssnAt none s.data = false ∧ hasM tenAt none s.data = false

/-- Model of the Python strip(): drop leading and trailing whitespace
(ASCII whitespace fragment of the Python semantics). -/
def pyStrip (s : String) : String :=
  ⟨((s.data.dropWhile Char.isWhitespace).reverse.dropWhile
      Char.isWhitespace).reverse⟩

/-- Model of clean_texts: strip each text, scrub PII, keep the non-empty
results in order. -/
def clean_texts : List String → List String
  | [] => []
  | t :: ts =>
    let t2 := scrub_pii (pyStrip t)
    if t2 = "" then clean_texts ts else t2 :: clean_texts ts

/- ===================== Generic helpers ================================= -/

/-- Model of the Python suffix slice l[-n:] (whole list when n = 0). -/
def pyLastSlice (n : Nat) (l : List α) : List α :=
  if n = 0 then l else l.drop (l.length - n)

/-- Boolean list-prefix test (explicit, evaluation friendly). -/
def isPre : List Char → List Char → Bool
  | [], _ => true
  | _ :: _, [] => false
  | a :: as, b :: bs => a == b && isPre as bs

/-- Boolean substring test: the needle occurs contiguously in the haystack. -/
def listContains : List Char → List Char → Bool
  | [], needle => isPre needle []
  | c :: t, needle => isPre needle (c :: t) || listContains t needle

/- ===================== Vector index (src/rag/embedder.py) =============== -/

/-- Row vector of rational scalars (model of a float32 row). -/
abbrev Vec := List ℚ

/-- Model of a 2-d numpy array: the column count is intrinsic to the array
(shape is retained even with zero rows). -/
structure NPMat where
  width : Nat
  rows : List Vec
deriving DecidableEq

/-- Inner product of two rows (queries @ vecs.T entrywise). -/
def dotQ : Vec → Vec → ℚ
  | x :: u, y :: v => x * y + dotQ u v
  | _, _ => 0

/-- Model of normalize for one row: divide by the Euclidean norm plus 1e-8.
The float square root is passed in as sq (applied to the squared norm). -/
def normalizeVec (sq : ℚ → ℚ) (v : Vec) : Vec :=
  v.map (fun x => x / (sq (dotQ v v) + 1 / 100000000))

/-- Model of normalize on a whole matrix (row-wise). -/
def normalizeMat (sq : ℚ → ℚ) (m : NPMat) : NPMat :=
  ⟨m.width, m.rows.map (normalizeVec sq)⟩

/-- Model of SimpleIndex with the numpy backend: a dimension fixed at
creation, a stacked vector array and the parallel text payload. -/
structure SimpleIndex where
  dim : Nat
  vecs : NPMat
  texts : List String
deriving DecidableEq

/-- Model of the constructor: np.zeros((0, dim)) and no texts. -/
def SimpleIndex.create (dim : Nat) : SimpleIndex :=
  { dim := dim, vecs := ⟨dim, []⟩, texts := [] }

/-- Error message standing for the ValueError numpy raises from np.vstack
when the widths of the stacked arrays differ. -/
def vstackErr : String := "ValueError: vstack width mismatch"

/-- Model of SimpleIndex.add (numpy backend): np.vstack the embeddings onto
vecs, then extend texts.  np.vstack raises when the widths differ, in which
case texts is not extended and the index is unchanged; the error is returned
alongside the (unchanged) index.  No dimension or length validation beyond
the implicit vstack shape check is performed by the source. -/
def SimpleIndex.add (idx : SimpleIndex) (embeddings : NPMat)
    (texts : List String) : SimpleIndex × Option String :=
  if embeddings.width = idx.vecs.width then
    ({ idx with
        vecs := ⟨idx.vecs.width, idx.vecs.rows ++ embeddings.rows⟩,
        texts := idx.texts ++ texts }, none)
  else
    (idx, some vstackErr)

/-- Model of np.argsort(-srow): indices of srow sorted by descending value.
The repository relies on the default numpy quicksort, whose order among equal
values is unspecified; this model picks the insertion-order tie-break.  No
theorem below other than the one about result ordering depends on the
tie-break choice. -/
def argsortDesc (s : List ℚ) : List Nat :=
  List.insertionSort
    (fun i j => s.getD j 0 < s.getD i 0 ∨ (s.getD i 0 = s.getD j 0 ∧ i ≤ j))
    (List.range s.length)

/-- Model of SimpleIndex.search (numpy backend): empty index gives one empty
row of results per query; otherwise per query the top-k indices of the
inner-product row paired with their scores. -/
def SimpleIndex.search (idx : SimpleIndex) (queries : List Vec) (k : Nat) :
    List (List (Nat × ℚ)) :=
  if idx.vecs.rows.length = 0 then
    queries.map (fun _ => [])
  else
    queries.map (fun q =>
      let srow := idx.vecs.rows.map (fun v => dotQ q v)
      ((argsortDesc srow).take k).map (fun i => (i, srow.getD i 0)))

/- ===================== Persistence of the index ======================== -/

/-- Test whether a path already ends in the .npz extension. -/
def endsNpz (p : List Char) : Bool :=
  p.reverse.take 4 == ['z', 'p', 'n', '.']

/-- Filename mangling performed by np.savez_compressed: the .npz extension is
appended to the given filename unless already present. -/
def npzName (path : String) : String :=
  if endsNpz path.data then path else path ++ ".npz"

/-- Model of the file system as a key-value store of written npz payloads. -/
abbrev FS := List (String × (NPMat × List String))

/-- Model of SimpleIndex.save (numpy backend): np.savez_compressed(str(path),
vecs=self.vecs, texts=self.texts) — the payload is written under the mangled
npz name. -/
def SimpleIndex.save (idx : SimpleIndex) (path : String) (fs : FS) : FS :=
  (npzName path, (idx.vecs, idx.texts)) :: fs

/-- Model of SimpleIndex.load (numpy backend): no faiss meta file is present,
so the path itself is checked for existence; a missing path yields none,
otherwise the payload is parsed back, the dimension taken from the stored
array width. -/
def SimpleIndex.load (fs : FS) (path : String) : Option SimpleIndex :=
  match fs.lookup path with
  | none => none
  | some (m, ts) => some { dim := m.width, vecs := m, texts := ts }

/- ===================== Retriever (src/rag/retriever.py) ================= -/

/-- Model of Retriever: an optional index plus the injected embedding
function (embeddings are returned as a matrix, one row per text). -/
structure Retriever where
  index : Option SimpleIndex
  embed : List String → NPMat

/-- Model of Retriever.is_ready. -/
def Retriever.is_ready (r : Retriever) : Bool :=
  match r.index with
  | none => false
  | some idx => !idx.texts.isEmpty

/-- Model of Retriever.add_texts: embed and normalize the batch, create the
index on first use (width taken from the embeddings, falling back to the
dim hint 768 when zero), then SimpleIndex.add.  A vstack error leaves the
(possibly freshly created) index without the new batch, matching the object
state after the exception in the source.  Persistence to disk is modelled
separately at the SimpleIndex level. -/
def Retriever.add_texts (sq : ℚ → ℚ) (r : Retriever) (texts : List String) :
    Retriever :=
  let vecs := normalizeMat sq (r.embed texts)
  let idx0 :=
    match r.index with
    | some i => i
    | none => SimpleIndex.create (if vecs.width = 0 then 768 else vecs.width)
  { r with index := some (idx0.add vecs texts).1 }

/-- Fold of add_texts over a sequence of ingestion batches. -/
def Retriever.addAll (sq : ℚ → ℚ) (r : Retriever)
    (batches : List (List String)) : Retriever :=
  batches.foldl (fun acc ts => acc.add_texts sq ts) r

/-- Model of Retriever.query: empty result when there is no index or no
texts; otherwise embed and normalize the query, search with the given k and
map result indices to their texts. -/
def Retriever.query (sq : ℚ → ℚ) (r : Retriever) (q : String) (k : Nat) :
    List (String × ℚ) :=
  match r.index with
  | none => []
  | some idx =>
    if idx.texts.isEmpty then []
    else
      let qm := normalizeMat sq (r.embed [q])
      let results := (idx.search qm.rows k).getD 0 []
      results.map (fun p => (idx.texts.getD p.1 "", p.2))

/-- Model of Retriever.similarity_to_nearest: the score of the single nearest
entry, 0 when there is none. -/
def Retriever.similarity_to_nearest (sq : ℚ → ℚ) (r : Retriever) (q : String) :
    ℚ :=
  match r.query sq q 1 with
  | [] => 0
  | p :: _ => p.2

/-- Exactness of the modelled square root at one input. -/
def SqrtOK (sq : ℚ → ℚ) (x : ℚ) : Prop :=
  0 ≤ sq x ∧ sq x * sq x = x

/-- Exactness of the modelled square root on every squared norm the embedding
function can produce. -/
def SqrtGood (sq : ℚ → ℚ) (embed : List String → NPMat) : Prop :=
  ∀ ts v, v ∈ (embed ts).rows → SqrtOK sq (dotQ v v)

/-- Invariant: every stored row of the index is the normalization of some
embedding output with an exactly representable norm. -/
def storedOK (sq : ℚ → ℚ) (r : Retriever) : Prop :=
  ∀ i, r.index = some i → ∀ v ∈ i.vecs.rows,
    ∃ u, SqrtOK sq (dotQ u u) ∧ v = normalizeVec sq u

/- ===================== Speak pipeline (src/commands/persona.py) ========= -/

/-- Retry instruction appended verbatim by the anti-regurgitation branch of
persona_speak. -/
def retryInstruction : String :=
  "\n\nRephrase completely in your own words and avoid phrases from snippets."

/-- Model of the generation section of persona_speak: one initial generation
call; if the retriever is ready and the similarity of the draft to the
nearest snippet exceeds 0.92, exactly one retry call on the prompt extended
with the retry instruction, accepted unconditionally.  Returns the final
draft together with the list of prompts sent to the backend, in order.
gen1 is the initial (possibly streaming) backend call, gen2 the blocking
retry call. -/
def speakGenerate (gen1 gen2 : String → String) (simToNearest : String → ℚ)
    (ready : Bool) (sprompt : String) : String × List String :=
  let draft := gen1 sprompt
  let sim := if ready then simToNearest draft else 0
  if sim > 92 / 100 then
    let sprompt2 := sprompt ++ retryInstruction
    (gen2 sprompt2, [sprompt, sprompt2])
  else
    (draft, [sprompt])

/- ===================== Concurrency guard (src/utils/concurrency.py) ===== -/

/-- Synchronization events observable from the guard. -/
inductive GEvent
  | semAcq
  | lockAcq
  | lockRel
  | semRel
deriving DecidableEq, Repr

/-- Joint state of the global semaphore (available permits) and the
per-channel lock. -/
structure SyncState where
  semAvail : Nat
  lockHeld : Bool
deriving DecidableEq

/-- Model of SpeakGuard: useLock mirrors whether a channel lock is attached
(speak_channel_exclusive enabled and a channel id present). -/
structure SpeakGuard where
  useLock : Bool
deriving DecidableEq

/-- Construction of the guard from the configuration flag and the optional
channel id, as in SpeakGuard.__init__. -/
def SpeakGuard.make (channelExclusive : Bool) (channelId : Option Nat) :
    SpeakGuard :=
  ⟨channelExclusive && channelId.isSome⟩

/-- Model of SpeakGuard.__aenter__: acquire the global semaphore first, then
the channel lock.  none models suspension (a resource is unavailable, the
coroutine waits); the event list records the acquisition order. -/
def SpeakGuard.aenter (g : SpeakGuard) (s : SyncState) :
    Option (SyncState × List GEvent) :=
  if s.semAvail = 0 then none
  else
    let s1 : SyncState := { s with semAvail := s.semAvail - 1 }
    if g.useLock then
      if s1.lockHeld then none
      else some ({ s1 with lockHeld := true }, [.semAcq, .lockAcq])
    else some (s1, [.semAcq])

/-- Model of SpeakGuard.__aexit__ (the exception argument is ignored by the
source): release the channel lock only when attached and currently locked
(idempotent tolerance), then release the global semaphore unconditionally. -/
def SpeakGuard.aexit (g : SpeakGuard) (exc : Option String) (s : SyncState) :
    SyncState × List GEvent :=
  let _ := exc
  let (s2, evs) :=
    if g.useLock && s.lockHeld then
      ({ s with lockHeld := false }, [GEvent.lockRel])
    else (s, ([] : List GEvent))
  ({ s2 with semAvail := s2.semAvail + 1 }, evs ++ [.semRel])

/- ===================== Hierarchical summarizer ========================= -/

/-- Trace of backend calls made by the summarization section of
persona_summarize. -/
structure SummarizeTrace where
  chunkInputs : List (List String)
  chunkSummaries : List String
  mergeCalls : Nat
  singleCalls : Nat
deriving DecidableEq

/-- Model of the chunking list comprehension
[used[i : i + size] for i in range(0, len(used), size)] for size at least 1
(the source guarantees size = max(1, ...)). -/
def chunkSlicesF (size : Nat) : Nat → List String → List (List String)
  | _, [] => []
  | 0, _ => []
  | fuel + 1, x :: t => (x :: t).take size :: chunkSlicesF size fuel (t.drop (size - 1))

/-- Wrapper running the chunking with enough fuel for the whole input. -/
def chunkSlices (size : Nat) (l : List String) : List (List String) :=
  chunkSlicesF size l.length l

/-- Chunk-count bound of the summarizer: chunks = max(1, chunkCount). -/
def hierChunks (chunkCount : Nat) : Nat := max 1 chunkCount

/-- Chunk size used by the summarizer:
max(1, ceil(n / chunks)) for n input items. -/
def hierSize (chunkCount n : Nat) : Nat :=
  max 1 ((n + hierChunks chunkCount - 1) / hierChunks chunkCount)

/-- Model of the summarization section of persona_summarize: when
hierarchical mode is on and the input holds more than 10 items, split into
contiguous chunks of size hierSize, issue one chunk call per chunk (in
order) and one merge call over the chunk summaries in the same order;
otherwise issue a single backend call over the whole input. -/
def hierSummarize (backendChunk : List String → String) (hier : Bool)
    (chunkCount : Nat) (used : List String) : SummarizeTrace :=
  if hier ∧ used.length > 10 then
    let cls := chunkSlices (hierSize chunkCount used.length) used
    { chunkInputs := cls, chunkSummaries := cls.map backendChunk,
      mergeCalls := 1, singleCalls := 0 }
  else
    { chunkInputs := [], chunkSummaries := [], mergeCalls := 0,
      singleCalls := 1 }

/- ===================== Ingestion dataflow (persona commands) =========== -/

/-- Texts reaching extract_basic_traits and extract_rich_traits in
persona_create and persona_update: the fetched messages after clean_texts. -/
def extractInputs (fetched : List String) : List String :=
  clean_texts fetched

/-- Message texts indexed by the persona_create background finalizer:
texts[-create_index_snippets:], further cut to the time-budget allowance. -/
def createIndexTexts (snippets allowed : Nat) (fetched : List String) :
    List String :=
  pyLastSlice allowed (pyLastSlice snippets (clean_texts fetched))

/-- Tagging of an image caption as indexed by persona_update. -/
def imgTag (c : String) : String := "[img] " ++ c

/-- Texts passed to Retriever.add_texts by persona_update: the last 300
cleaned message texts plus the first 20 vision captions tagged with the
image marker (captions are not scrubbed by the source). -/
def updateToAdd (fetched captions : List String) : List String :=
  pyLastSlice 300 (clean_texts fetched) ++ (captions.take 20).map imgTag

/- ===================== PII scrubbing lemmas ============================ -/

theorem subWF_nil (w : Nat) (mat : Option Char → List Char → Bool)
    (fuel : Nat) (prev : Option Char) : subWF w mat fuel prev [] = [] := by
  cases fuel <;> rfl

theorem subWF_irrel (w : Nat) (mat : Option Char → List Char → Bool) :
    ∀ (fuel1 fuel2 : Nat) (prev : Option Char) (l : List Char),
      l.length ≤ fuel1 → l.length ≤ fuel2 →
      subWF w mat fuel1 prev l = subWF w mat fuel2 prev l := by
  intro fuel1
  induction fuel1 with
  | zero =>
    intro fuel2 prev l hl1 _
    have : l = [] := List.eq_nil_of_length_eq_zero (by omega)
    subst this
    rw [subWF_nil, subWF_nil]
  | succ fuel1 ih =>
    intro fuel2 prev l hl1 hl2
    cases l with
    | nil => rw [subWF_nil, subWF_nil]
    | cons c rest =>
      cases fuel2 with
      | zero => simp at hl2
      | succ fuel2 =>
        rw [subWF, subWF]
        simp only [List.length_cons] at hl1 hl2
        by_cases hm : mat prev (c :: rest) = true
        · rw [if_pos hm, if_pos hm,
            ih fuel2 _ _ (by simp only [List.length_drop]; omega)
              (by simp only [List.length_drop]; omega)]
        · rw [if_neg hm, if_neg hm, ih fuel2 _ _ (by omega) (by omega)]

theorem subW_nil (w : Nat) (mat : Option Char → List Char → Bool)
    (prev : Option Char) : subW w mat prev [] = [] := rfl

theorem subW_cons (w : Nat) (mat : Option Char → List Char → Bool)
    (prev : Option Char) (c : Char) (rest : List Char) :
    subW w mat prev (c :: rest) =
      if mat prev (c :: rest) then
        redactedL ++ subW w mat (some (rest.getD w c)) (rest.drop (w + 1))
      else
        c :: subW w mat (some c) rest := by
  show subWF w mat (c :: rest).length prev (c :: rest) = _
  rw [List.length_cons, subWF]
  by_cases hm : mat prev (c :: rest) = true
  · rw [if_pos hm, if_pos hm, subW,
      subWF_irrel w mat rest.length (rest.drop (w + 1)).length _ _
        (by simp only [List.length_drop]; omega) (le_refl _)]
  · rw [if_neg hm, if_neg hm, subW]

theorem chunkSlicesF_nil (size fuel : Nat) :
    chunkSlicesF size fuel [] = [] := by
  cases fuel <;> rfl

theorem chunkSlicesF_irrel (size : Nat) :
    ∀ (fuel1 fuel2 : Nat) (l : List String),
      l.length ≤ fuel1 → l.length ≤ fuel2 →
      chunkSlicesF size fuel1 l = chunkSlicesF size fuel2 l := by
  intro fuel1
  induction fuel1 with
  | zero =>
    intro fuel2 l hl1 _
    have : l = [] := List.eq_nil_of_length_eq_zero (by omega)
    subst this
    rw [chunkSlicesF_nil, chunkSlicesF_nil]
  | succ fuel1 ih =>
    intro fuel2 l hl1 hl2
    cases l with
    | nil => rw [chunkSlicesF_nil, chunkSlicesF_nil]
    | cons x t =>
      cases fuel2 with
      | zero => simp at hl2
      | succ fuel2 =>
        rw [chunkSlicesF, chunkSlicesF]
        simp only [List.length_cons] at hl1 hl2
        rw [ih fuel2 _ (by simp only [List.length_drop]; omega)
          (by simp only [List.length_drop]; omega)]

theorem chunkSlices_nil (size : Nat) : chunkSlices size [] = [] := rfl

theorem chunkSlices_cons (size : Nat) (x : String) (t : List String) :
    chunkSlices size (x :: t) =
      (x :: t).take size :: chunkSlices size (t.drop (size - 1)) := by
  show chunkSlicesF size (x :: t).length (x :: t) = _
  rw [List.length_cons, chunkSlicesF, chunkSlices,
    chunkSlicesF_irrel size t.length (t.drop (size - 1)).length _
      (by simp only [List.length_drop]; omega) (le_refl _)]

theorem digit_isWordChar {c : Char} (h : c.isDigit = true) :
    isWordChar c = true := by
  simp [isWordChar, Char.isAlphanum, h]

theorem ssnAt_wb (p : Option Char) (l : List Char) (hp : wbBefore p = false) :
    ssnAt p l = false := by
  simp [ssnAt, hp]

theorem tenAt_wb (p : Option Char) (l : List Char) (hp : wbBefore p = false) :
    tenAt p l = false := by
  simp [tenAt, hp]

theorem ssnAt_head (p : Option Char) (c : Char) (t : List Char)
    (hc : c.isDigit = false) : ssnAt p (c :: t) = false := by
  rcases t with _ | ⟨x1, _ | ⟨x2, _ | ⟨x3, _ | ⟨x4, _ | ⟨x5, _ | ⟨x6, _ | ⟨x7,
    _ | ⟨x8, _ | ⟨x9, _ | ⟨x10, rest⟩⟩⟩⟩⟩⟩⟩⟩⟩⟩ <;> simp [ssnAt, hc]

theorem tenAt_head (p : Option Char) (c : Char) (t : List Char)
    (hc : c.isDigit = false) : tenAt p (c :: t) = false := by
  rcases t with _ | ⟨x1, _ | ⟨x2, _ | ⟨x3, _ | ⟨x4, _ | ⟨x5, _ | ⟨x6, _ | ⟨x7,
    _ | ⟨x8, _ | ⟨x9, rest⟩⟩⟩⟩⟩⟩⟩⟩⟩ <;> simp [tenAt, hc]

theorem ssn_trailing (p : Option Char) (c : Char) (rest : List Char)
    (h : ssnAt p (c :: rest) = true) :
    wbAfter (rest.drop 10) = true ∧ (rest.getD 9 c).isDigit = true := by
  rcases rest with _ | ⟨x1, _ | ⟨x2, _ | ⟨x3, _ | ⟨x4, _ | ⟨x5, _ | ⟨x6, _ | ⟨x7,
    _ | ⟨x8, _ | ⟨x9, _ | ⟨x10, rest2⟩⟩⟩⟩⟩⟩⟩⟩⟩⟩ <;>
    simp_all [ssnAt, List.getD]

theorem ten_trailing (p : Option Char) (c : Char) (rest : List Char)
    (h : tenAt p (c :: rest) = true) :
    wbAfter (rest.drop 9) = true ∧ (rest.getD 8 c).isDigit = true := by
  rcases rest with _ | ⟨x1, _ | ⟨x2, _ | ⟨x3, _ | ⟨x4, _ | ⟨x5, _ | ⟨x6, _ | ⟨x7,
    _ | ⟨x8, _ | ⟨x9, rest2⟩⟩⟩⟩⟩⟩⟩⟩⟩ <;>
    simp_all [tenAt, List.getD]

theorem hasM_redacted (mat : Option Char → List Char → Bool)
    (hB : ∀ p c t, c.isDigit = false → mat p (c :: t) = false)
    (p : Option Char) (X : List Char) :
    hasM mat p (redactedL ++ X) = hasM mat (some ']') X := by
  have h1 : ∀ q t, mat q ('[' :: t) = false := fun q t => hB q '[' t (by decide)
  have h2 : ∀ q t, mat q ('R' :: t) = false := fun q t => hB q 'R' t (by decide)
  have h3 : ∀ q t, mat q ('E' :: t) = false := fun q t => hB q 'E' t (by decide)
  have h4 : ∀ q t, mat q ('D' :: t) = false := fun q t => hB q 'D' t (by decide)
  have h5 : ∀ q t, mat q ('A' :: t) = false := fun q t => hB q 'A' t (by decide)
  have h6 : ∀ q t, mat q ('C' :: t) = false := fun q t => hB q 'C' t (by decide)
  have h7 : ∀ q t, mat q ('T' :: t) = false := fun q t => hB q 'T' t (by decide)
  have h8 : ∀ q t, mat q (']' :: t) = false := fun q t => hB q ']' t (by decide)
  simp [redactedL, hasM, h1, h2, h3, h4, h5, h6, h7, h8]

theorem subW_copy (w : Nat) (mat : Option Char → List Char → Bool)
    (p : Option Char) (l : List Char) (y : Char) (Y : List Char)
    (h : subW w mat p l = y :: Y) (hy : y.isDigit = true ∨ y = '-') :
    ∃ t, l = y :: t ∧ Y = subW w mat (some y) t := by
  cases l with
  | nil => rw [subW_nil] at h; exact absurd h (by simp)
  | cons c rest =>
    rw [subW_cons] at h
    by_cases hm : mat p (c :: rest) = true
    · rw [if_pos hm] at h
      simp only [redactedL, List.cons_append] at h
      injection h with h1 _
      rcases hy with hy | hy <;> rw [← h1] at hy <;> exact absurd hy (by decide)
    · rw [if_neg hm] at h
      injection h with h1 h2
      subst h1
      exact ⟨rest, rfl, h2.symm⟩

theorem subW_chain (w : Nat) (mat : Option Char → List Char → Bool)
    (ys : List Char) :
    ∀ (p : Option Char) (l Z : List Char),
      (∀ y ∈ ys, y.isDigit = true ∨ y = '-') →
      subW w mat p l = ys ++ Z →
      ∃ t, l = ys ++ t ∧ Z = subW w mat (ys.foldl (fun _ y => some y) p) t := by
  induction ys with
  | nil =>
    intro p l Z _ h
    exact ⟨l, rfl, by simpa using h.symm⟩
  | cons y ys ih =>
    intro p l Z hys h
    rw [List.cons_append] at h
    obtain ⟨t1, rfl, h2⟩ :=
      subW_copy w mat p l y (ys ++ Z) h (hys y (by simp))
    obtain ⟨t, rfl, hZ⟩ :=
      ih (some y) t1 Z (fun z hz => hys z (by simp [hz])) h2.symm
    exact ⟨t, by simp, by simpa using hZ⟩

theorem wbAfter_subW (w : Nat) (mat : Option Char → List Char → Bool)
    (hWB : ∀ p l, wbBefore p = false → mat p l = false)
    (y : Char) (hy : isWordChar y = true) (t : List Char) :
    wbAfter (subW w mat (some y) t) = wbAfter t := by
  cases t with
  | nil => rw [subW_nil]
  | cons c rest =>
    have hm : mat (some y) (c :: rest) = false :=
      hWB _ _ (by simp [wbBefore, hy])
    rw [subW_cons, if_neg (by simp [hm])]
    simp [wbAfter]

theorem ssn_new_aux (w2 : Nat) (mat2 : Option Char → List Char → Bool)
    (hWB2 : ∀ p l, wbBefore p = false → mat2 p l = false)
    (p : Option Char) (c : Char) (rest : List Char)
    (h2 : ssnAt p (c :: subW w2 mat2 (some c) rest) = true) :
    ssnAt p (c :: rest) = true := by
  rcases hY : subW w2 mat2 (some c) rest with _ | ⟨y1, _ | ⟨y2, _ | ⟨y3,
    _ | ⟨y4, _ | ⟨y5, _ | ⟨y6, _ | ⟨y7, _ | ⟨y8, _ | ⟨y9, _ | ⟨y10, Z⟩⟩⟩⟩⟩⟩⟩⟩⟩⟩ <;>
      rw [hY] at h2 <;> simp [ssnAt] at h2
  -- full shape: c :: y1 .. y10 with trailing boundary on Z
  simp only [and_assoc] at h2
  obtain ⟨hwb, hc, hy1, hy2, hy3, hy4, hy5, hy6, hy7, hy8, hy9, hy10, hZ⟩ := h2
  have hys : ∀ y ∈ [y1, y2, y3, y4, y5, y6, y7, y8, y9, y10],
      y.isDigit = true ∨ y = '-' := by
    intro y hy
    simp only [List.mem_cons, List.not_mem_nil, or_false] at hy
    rcases hy with rfl | rfl | rfl | rfl | rfl | rfl | rfl | rfl | rfl | rfl <;>
      simp [hy1, hy2, hy3, hy4, hy5, hy6, hy7, hy8, hy9, hy10]
  obtain ⟨t, ht, hZt⟩ :=
    subW_chain w2 mat2 [y1, y2, y3, y4, y5, y6, y7, y8, y9, y10]
      (some c) rest Z hys (by simpa using hY)
  have hwt : wbAfter t = true := by
    have : wbAfter Z = wbAfter t := by
      rw [hZt]
      exact wbAfter_subW w2 mat2 hWB2 y10 (digit_isWordChar hy10) t
    rw [← this]
    exact hZ
  subst ht
  simp [ssnAt, hwb, hc, hy1, hy2, hy3, hy4, hy5, hy6, hy7, hy8, hy9, hy10, hwt]

theorem ten_new_aux (w2 : Nat) (mat2 : Option Char → List Char → Bool)
    (hWB2 : ∀ p l, wbBefore p = false → mat2 p l = false)
    (p : Option Char) (c : Char) (rest : List Char)
    (h2 : tenAt p (c :: subW w2 mat2 (some c) rest) = true) :
    tenAt p (c :: rest) = true := by
  rcases hY : subW w2 mat2 (some c) rest with _ | ⟨y1, _ | ⟨y2, _ | ⟨y3,
    _ | ⟨y4, _ | ⟨y5, _ | ⟨y6, _ | ⟨y7, _ | ⟨y8, _ | ⟨y9, Z⟩⟩⟩⟩⟩⟩⟩⟩⟩ <;>
      rw [hY] at h2 <;> simp [tenAt] at h2
  simp only [and_assoc] at h2
  obtain ⟨hwb, hc, hy1, hy2, hy3, hy4, hy5, hy6, hy7, hy8, hy9, hZ⟩ := h2
  have hys : ∀ y ∈ [y1, y2, y3, y4, y5, y6, y7, y8, y9],
      y.isDigit = true ∨ y = '-' := by
    intro y hy
    simp only [List.mem_cons, List.not_mem_nil, or_false] at hy
    rcases hy with rfl | rfl | rfl | rfl | rfl | rfl | rfl | rfl | rfl <;>
      simp [hy1, hy2, hy3, hy4, hy5, hy6, hy7, hy8, hy9]
  obtain ⟨t, ht, hZt⟩ :=
    subW_chain w2 mat2 [y1, y2, y3, y4, y5, y6, y7, y8, y9]
      (some c) rest Z hys (by simpa using hY)
  have hwt : wbAfter t = true := by
    have : wbAfter Z = wbAfter t := by
      rw [hZt]
      exact wbAfter_subW w2 mat2 hWB2 y9 (digit_isWordChar hy9) t
    rw [← this]
    exact hZ
  subst ht
  simp [tenAt, hwb, hc, hy1, hy2, hy3, hy4, hy5, hy6, hy7, hy8, hy9, hwt]

theorem hasM_false_suffix (mat : Option Char → List Char → Bool) :
    ∀ (l1 : List Char) (p : Option Char) (x : Char) (xs : List Char),
      hasM mat p (l1 ++ x :: xs) = false → hasM mat (some x) xs = false := by
  intro l1
  induction l1 with
  | nil =>
    intro p x xs h
    rw [List.nil_append, hasM] at h
    exact (Bool.or_eq_false_iff.mp h).2
  | cons a t ih =>
    intro p x xs h
    rw [List.cons_append, hasM] at h
    exact ih (some a) x xs (Bool.or_eq_false_iff.mp h).2

theorem subW_self (w : Nat) (mat : Option Char → List Char → Bool)
    (hB : ∀ p c t, c.isDigit = false → mat p (c :: t) = false)
    (hWB : ∀ p l, wbBefore p = false → mat p l = false)
    (hTB : ∀ p c rest, mat p (c :: rest) = true →
      wbAfter (rest.drop (w + 1)) = true ∧ (rest.getD w c).isDigit = true)
    (hNEW : ∀ p c rest, mat p (c :: rest) = false →
      mat p (c :: subW w mat (some c) rest) = false) :
    ∀ (n : Nat) (l : List Char), l.length ≤ n → ∀ p,
      hasM mat p (subW w mat p l) = false := by
  intro n
  induction n with
  | zero =>
    intro l hl p
    have hnil : l = [] := List.eq_nil_of_length_eq_zero (by omega)
    subst hnil
    rw [subW_nil]; rfl
  | succ n ih =>
    intro l hl p
    cases l with
    | nil => rw [subW_nil]; rfl
    | cons c rest =>
      by_cases hm : mat p (c :: rest) = true
      · have hsub : subW w mat p (c :: rest) =
            redactedL ++ subW w mat (some (rest.getD w c)) (rest.drop (w + 1)) := by
          rw [subW_cons, if_pos hm]
        rw [hsub, hasM_redacted mat hB]
        obtain ⟨hafter, hdig⟩ := hTB p c rest hm
        rcases hld : rest.drop (w + 1) with _ | ⟨x, xs⟩
        · rw [subW_nil]; rfl
        · rw [hld] at hafter
          have hxw : isWordChar x = false := by simpa [wbAfter] using hafter
          have hxd : x.isDigit = false := by
            cases hxd2 : x.isDigit
            · rfl
            · exact absurd (digit_isWordChar hxd2) (by simp [hxw])
          have hm2 : mat (some (rest.getD w c)) (x :: xs) = false :=
            hWB _ _ (by
              simp only [wbBefore, digit_isWordChar hdig, Bool.not_true])
          have hX : subW w mat (some (rest.getD w c)) (x :: xs) =
              x :: subW w mat (some x) xs := by
            rw [subW_cons, if_neg (by rw [hm2]; simp)]
          rw [hX, hasM]
          have hlen : xs.length ≤ n := by
            have := congrArg List.length hld
            simp only [List.length_drop, List.length_cons] at this hl
            omega
          rw [hB _ x _ hxd, ih xs hlen (some x)]
          rfl
      · have hm2 : mat p (c :: rest) = false := by
          cases hv : mat p (c :: rest)
          · rfl
          · exact absurd hv hm
        have hsub : subW w mat p (c :: rest) = c :: subW w mat (some c) rest := by
          rw [subW_cons, if_neg (by simp [hm2])]
        rw [hsub, hasM]
        have hlen : rest.length ≤ n := by
          simp only [List.length_cons] at hl
          omega
        rw [hNEW p c rest hm2, ih rest hlen (some c)]
        rfl

theorem subW_pres (w : Nat) (mat1 mat2 : Option Char → List Char → Bool)
    (hB2 : ∀ p c t, c.isDigit = false → mat2 p (c :: t) = false)
    (hWB1 : ∀ p l, wbBefore p = false → mat1 p l = false)
    (hTB1 : ∀ p c rest, mat1 p (c :: rest) = true →
      wbAfter (rest.drop (w + 1)) = true ∧ (rest.getD w c).isDigit = true)
    (hNEW : ∀ p c rest, mat2 p (c :: rest) = false →
      mat2 p (c :: subW w mat1 (some c) rest) = false) :
    ∀ (n : Nat) (l : List Char), l.length ≤ n → ∀ p,
      hasM mat2 p l = false → hasM mat2 p (subW w mat1 p l) = false := by
  intro n
  induction n with
  | zero =>
    intro l hl p _
    have hnil : l = [] := List.eq_nil_of_length_eq_zero (by omega)
    subst hnil
    rw [subW_nil]; rfl
  | succ n ih =>
    intro l hl p hno
    cases l with
    | nil => rw [subW_nil]; rfl
    | cons c rest =>
      rw [hasM] at hno
      obtain ⟨hno1, hno2⟩ := Bool.or_eq_false_iff.mp hno
      by_cases hm : mat1 p (c :: rest) = true
      · have hsub : subW w mat1 p (c :: rest) =
            redactedL ++ subW w mat1 (some (rest.getD w c)) (rest.drop (w + 1)) := by
          rw [subW_cons, if_pos hm]
        rw [hsub, hasM_redacted mat2 hB2]
        obtain ⟨hafter, hdig⟩ := hTB1 p c rest hm
        rcases hld : rest.drop (w + 1) with _ | ⟨x, xs⟩
        · rw [subW_nil]; rfl
        · rw [hld] at hafter
          have hxw : isWordChar x = false := by simpa [wbAfter] using hafter
          have hxd : x.isDigit = false := by
            cases hxd2 : x.isDigit
            · rfl
            · exact absurd (digit_isWordChar hxd2) (by simp [hxw])
          have hm12 : mat1 (some (rest.getD w c)) (x :: xs) = false :=
            hWB1 _ _ (by
              simp only [wbBefore, digit_isWordChar hdig, Bool.not_true])
          have hX : subW w mat1 (some (rest.getD w c)) (x :: xs) =
              x :: subW w mat1 (some x) xs := by
            rw [subW_cons, if_neg (by rw [hm12]; simp)]
          rw [hX, hasM]
          have hlen : xs.length ≤ n := by
            have := congrArg List.length hld
            simp only [List.length_drop, List.length_cons] at this hl
            omega
          have hxsno : hasM mat2 (some x) xs = false := by
            have hsplit : rest = rest.take (w + 1) ++ x :: xs := by
              rw [← hld, List.take_append_drop]
            have h0 : hasM mat2 p ((c :: rest.take (w + 1)) ++ x :: xs) = false := by
              rw [List.cons_append, ← hsplit]
              exact hno
            exact hasM_false_suffix mat2 (c :: rest.take (w + 1)) p x xs h0
          rw [hB2 _ x _ hxd, ih xs hlen (some x) hxsno]
          rfl
      · have hm2 : mat1 p (c :: rest) = false := by
          cases hv : mat1 p (c :: rest)
          · rfl
          · exact absurd hv hm
        have hsub : subW w mat1 p (c :: rest) = c :: subW w mat1 (some c) rest := by
          rw [subW_cons, if_neg (by simp [hm2])]
        rw [hsub, hasM]
        have hlen : rest.length ≤ n := by
          simp only [List.length_cons] at hl
          omega
        rw [hNEW p c rest hno1, ih rest hlen (some c) hno2]
        rfl

theorem ssn_new (w2 : Nat) (mat2 : Option Char → List Char → Bool)
    (hWB2 : ∀ p l, wbBefore p = false → mat2 p l = false) :
    ∀ p c rest, ssnAt p (c :: rest) = false →
      ssnAt p (c :: subW w2 mat2 (some c) rest) = false := by
  intro p c rest h
  cases hv : ssnAt p (c :: subW w2 mat2 (some c) rest)
  · rfl
  · exact absurd (ssn_new_aux w2 mat2 hWB2 p c rest hv) (by simp [h])

theorem ten_new (w2 : Nat) (mat2 : Option Char → List Char → Bool)
    (hWB2 : ∀ p l, wbBefore p = false → mat2 p l = false) :
    ∀ p c rest, tenAt p (c :: rest) = false →
      tenAt p (c :: subW w2 mat2 (some c) rest) = false := by
  intro p c rest h
  cases hv : tenAt p (c :: subW w2 mat2 (some c) rest)
  · rfl
  · exact absurd (ten_new_aux w2 mat2 hWB2 p c rest hv) (by simp [h])

/-- Core scrubbing soundness: the output of scrub_pii matches neither PII
pattern anywhere. -/
theorem scrub_pii_noPII (s : String) : noPII (scrub_pii s) := by
  have hssnM : hasM ssnAt none (subW 9 ssnAt none s.data) = false :=
    subW_self 9 ssnAt ssnAt_head ssnAt_wb ssn_trailing
      (ssn_new 9 ssnAt ssnAt_wb) s.data.length s.data (le_refl _) none
  exact ⟨subW_pres 8 tenAt ssnAt ssnAt_head tenAt_wb ten_trailing
      (ssn_new 8 tenAt tenAt_wb) (subW 9 ssnAt none s.data).length _
      (le_refl _) none hssnM,
    subW_self 8 tenAt tenAt_head tenAt_wb ten_trailing
      (ten_new 8 tenAt tenAt_wb) (subW 9 ssnAt none s.data).length _
      (le_refl _) none⟩

theorem subW_eq_nil (w : Nat) (mat : Option Char → List Char → Bool)
    (p : Option Char) (l : List Char) : subW w mat p l = [] ↔ l = [] := by
  cases l with
  | nil => rw [subW_nil]
  | cons c rest =>
    rw [subW_cons]
    by_cases hm : mat p (c :: rest) = true
    · rw [if_pos hm]; simp [redactedL]
    · rw [if_neg hm]; simp

theorem scrub_pii_eq_empty (s : String) : scrub_pii s = "" ↔ s = "" := by
  rw [scrub_pii]
  constructor
  · intro h
    have h2 : subW 8 tenAt none (subW 9 ssnAt none s.data) = [] := by
      have := congrArg String.data h
      simpa using this
    have h3 : s.data = [] := by
      rw [subW_eq_nil, subW_eq_nil] at h2
      exact h2
    cases s with
    | mk d =>
      simp only at h3
      subst h3
      rfl
  · intro h
    subst h
    rfl


theorem clean_texts_eq (ts : List String) :
    clean_texts ts =
      (ts.filter (fun t => !(scrub_pii (pyStrip t) == ""))).map
        (fun t => scrub_pii (pyStrip t)) := by
  induction ts with
  | nil => rfl
  | cons t ts ih =>
    by_cases h : scrub_pii (pyStrip t) = ""
    · have hb : (!(scrub_pii (pyStrip t) == "")) = false := by simp [h]
      simp [clean_texts, List.filter, h, hb, ih]
    · have hb : (!(scrub_pii (pyStrip t) == "")) = true := by simp [h]
      simp [clean_texts, List.filter, h, hb, ih]

theorem clean_texts_mem (ts : List String) (s : String)
    (hs : s ∈ clean_texts ts) : ∃ t ∈ ts, s = scrub_pii (pyStrip t) ∧ s ≠ "" := by
  rw [clean_texts_eq] at hs
  obtain ⟨t, ht, rfl⟩ := List.mem_map.mp hs
  have := List.of_mem_filter ht
  refine ⟨t, List.mem_of_mem_filter ht, rfl, ?_⟩
  intro hempty
  rw [hempty] at this
  simp at this

theorem pyLastSlice_subset (n : Nat) (l : List String) :
    pyLastSlice n l ⊆ l := by
  rw [pyLastSlice]
  by_cases h : n = 0
  · rw [if_pos h]
    exact fun x hx => hx
  · rw [if_neg h]
    exact List.drop_subset _ _

/-- Every cleaned text is PII-free (combines clean_texts_mem with the core
scrubber soundness). -/
theorem clean_texts_noPII (ts : List String) (s : String)
    (hs : s ∈ clean_texts ts) : noPII s := by
  obtain ⟨t, _, rfl, _⟩ := clean_texts_mem ts s hs
  exact scrub_pii_noPII _

/- ===================== Chunking lemmas (C5) ============================ -/

theorem ceil_le_mul (n c : Nat) (hc : 0 < c) : n ≤ c * ((n + c - 1) / c) := by
  have hd := Nat.div_add_mod (n + c - 1) c
  have hm : (n + c - 1) % c < c := Nat.mod_lt _ hc
  generalize hq : (n + c - 1) / c = q at hd ⊢
  generalize hr : (n + c - 1) % c = r at hd hm
  generalize hM : c * q = M at hd ⊢
  omega

theorem div_ceil_le (n s c : Nat) (hs : 0 < s) (h : n ≤ s * c) :
    (n + s - 1) / s ≤ c := by
  have h2 : n + s - 1 < (c + 1) * s := by
    have he : (c + 1) * s = s * c + s := by ring
    rw [he]
    omega
  exact Nat.lt_succ_iff.mp ((Nat.div_lt_iff_lt_mul hs).mpr h2)

theorem chunkSlices_join (size : Nat) (hs : 0 < size) :
    ∀ (n : Nat) (l : List String), l.length ≤ n →
      (chunkSlices size l).flatten = l := by
  intro n
  induction n with
  | zero =>
    intro l hl
    have : l = [] := List.eq_nil_of_length_eq_zero (by omega)
    subst this
    rw [chunkSlices_nil]
    rfl
  | succ n ih =>
    intro l hl
    cases l with
    | nil => rw [chunkSlices_nil]; rfl
    | cons x t =>
      rw [chunkSlices_cons, List.flatten_cons,
        ih (t.drop (size - 1)) (by simp only [List.length_drop]
                                   simp only [List.length_cons] at hl
                                   omega)]
      cases size with
      | zero => omega
      | succ s =>
        rw [List.take_succ_cons, Nat.succ_sub_one, List.cons_append,
          List.take_append_drop]

theorem chunkSlices_length (size : Nat) (hs : 0 < size) :
    ∀ (n : Nat) (l : List String), l.length ≤ n →
      (chunkSlices size l).length = (l.length + size - 1) / size := by
  intro n
  induction n with
  | zero =>
    intro l hl
    have : l = [] := List.eq_nil_of_length_eq_zero (by omega)
    subst this
    rw [chunkSlices_nil]
    simp [Nat.div_eq_of_lt (by omega : size - 1 < size)]
  | succ n ih =>
    intro l hl
    cases l with
    | nil =>
      rw [chunkSlices_nil]
      simp [Nat.div_eq_of_lt (by omega : size - 1 < size)]
    | cons x t =>
      rw [chunkSlices_cons, List.length_cons,
        ih (t.drop (size - 1)) (by simp only [List.length_drop]
                                   simp only [List.length_cons] at hl
                                   omega)]
      simp only [List.length_drop, List.length_cons]
      have hr : t.length + 1 + size - 1 = t.length + size := by omega
      rw [hr, Nat.add_div_right _ hs]
      rcases Nat.lt_or_ge t.length size with hcase | hcase
      · have hz : t.length / size = 0 := Nat.div_eq_of_lt hcase
        have h2 : (t.length - (size - 1) + size - 1) / size = 0 := by
          apply Nat.div_eq_of_lt
          omega
        rw [h2, hz]
      · have h1 : t.length - (size - 1) + size - 1 = t.length := by omega
        rw [h1]

theorem chunkSlices_ne_nil (size : Nat) (hs : 0 < size) :
    ∀ (n : Nat) (l : List String) (c : List String), l.length ≤ n →
      c ∈ chunkSlices size l → c ≠ [] := by
  intro n
  induction n with
  | zero =>
    intro l c hl hc
    have : l = [] := List.eq_nil_of_length_eq_zero (by omega)
    subst this
    rw [chunkSlices_nil] at hc
    exact absurd hc (List.not_mem_nil c)
  | succ n ih =>
    intro l c hl hc
    cases l with
    | nil =>
      rw [chunkSlices_nil] at hc
      exact absurd hc (List.not_mem_nil c)
    | cons x t =>
      rw [chunkSlices_cons] at hc
      rcases List.mem_cons.mp hc with rfl | hc
      · cases size with
        | zero => omega
        | succ s => simp [List.take_succ_cons]
      · exact ih (t.drop (size - 1)) c
          (by simp only [List.length_drop]
              simp only [List.length_cons] at hl
              omega) hc

/- ===================== Substring lemmas (C4) =========================== -/

theorem isPre_append (b rest : List Char) : isPre b (b ++ rest) = true := by
  induction b with
  | nil => rfl
  | cons a as ih => simp [isPre, ih]

theorem isPre_refl (b : List Char) : isPre b b = true := by
  have h := isPre_append b []
  rwa [List.append_nil] at h

theorem listContains_suffix (a b : List Char) :
    listContains (a ++ b) b = true := by
  induction a with
  | nil =>
    rw [List.nil_append]
    cases b with
    | nil => rfl
    | cons c t =>
      rw [listContains]
      simp [isPre_refl]
  | cons c t ih =>
    rw [List.cons_append, listContains]
    simp [ih]

theorem str_data_append (s t : String) : (s ++ t).data = s.data ++ t.data :=
  rfl

/- ===================== Similarity bound lemmas (C9) ==================== -/

theorem dotQ_nil_left (v : Vec) : dotQ [] v = 0 := by
  cases v <;> rfl

theorem dotQ_nil_right (u : Vec) : dotQ u [] = 0 := by
  cases u <;> rfl

theorem dotQ_self_nonneg (u : Vec) : 0 ≤ dotQ u u := by
  induction u with
  | nil => rw [dotQ_nil_left]
  | cons x u ih =>
    rw [dotQ]
    nlinarith [mul_self_nonneg x]

theorem dotQ_cs : ∀ u v : Vec, (dotQ u v) ^ 2 ≤ dotQ u u * dotQ v v := by
  intro u
  induction u with
  | nil =>
    intro v
    rw [dotQ_nil_left, dotQ_nil_left]
    simp [dotQ_self_nonneg v]
  | cons x u ih =>
    intro v
    cases v with
    | nil =>
      rw [dotQ_nil_right, dotQ_nil_right]
      simp
    | cons y v =>
      simp only [dotQ]
      have hA := dotQ_self_nonneg u
      have hB := dotQ_self_nonneg v
      have hd := ih v
      rcases eq_or_lt_of_le hA with hA0 | hApos
      · have hsq : (dotQ u v) ^ 2 = 0 := by
          have h1 : (dotQ u v) ^ 2 ≤ 0 := by
            calc (dotQ u v) ^ 2 ≤ dotQ u u * dotQ v v := hd
            _ = 0 := by rw [← hA0]; ring
          exact le_antisymm h1 (sq_nonneg _)
        have hd0 : dotQ u v = 0 := by
          exact pow_eq_zero_iff (n := 2) (by norm_num) |>.mp hsq
        rw [hd0, ← hA0]
        nlinarith [mul_self_nonneg x, mul_self_nonneg y, hB,
          mul_nonneg (mul_nonneg (mul_self_nonneg x) hB) (le_refl (1 : ℚ))]
      · have key : dotQ u u *
            ((x * x + dotQ u u) * (y * y + dotQ v v) - (x * y + dotQ u v) ^ 2)
            = (x * dotQ u v - dotQ u u * y) ^ 2
              + (x * x + dotQ u u) * (dotQ u u * dotQ v v - (dotQ u v) ^ 2) := by
          ring
        have hfac : (0:ℚ) ≤ x * x + dotQ u u := by nlinarith [mul_self_nonneg x]
        have h2 : (0:ℚ) ≤ (x * dotQ u v - dotQ u u * y) ^ 2
            + (x * x + dotQ u u) * (dotQ u u * dotQ v v - (dotQ u v) ^ 2) :=
          add_nonneg (sq_nonneg _) (mul_nonneg hfac (by linarith))
        have h3 : (0:ℚ) ≤ dotQ u u *
            ((x * x + dotQ u u) * (y * y + dotQ v v) - (x * y + dotQ u v) ^ 2) := by
          rw [key]; exact h2
        nlinarith [h3, hApos]

theorem dotQ_abs_bound (u v : Vec) (a b : ℚ) (ha : 0 ≤ a) (hb : 0 ≤ b)
    (ha2 : a * a = dotQ u u) (hb2 : b * b = dotQ v v) :
    -(a * b) ≤ dotQ u v ∧ dotQ u v ≤ a * b := by
  have hcs := dotQ_cs u v
  rw [← ha2, ← hb2] at hcs
  constructor
  · nlinarith [hcs, mul_nonneg ha hb]
  · nlinarith [hcs, mul_nonneg ha hb]

theorem dotQ_map_div : ∀ (u v : Vec) (du dv : ℚ),
    dotQ (u.map (fun x => x / du)) (v.map (fun x => x / dv)) =
      dotQ u v / (du * dv) := by
  intro u
  induction u with
  | nil =>
    intro v du dv
    rw [List.map_nil, dotQ_nil_left, dotQ_nil_left, zero_div]
  | cons x u ih =>
    intro v du dv
    cases v with
    | nil =>
      rw [List.map_nil, dotQ_nil_right, dotQ_nil_right, zero_div]
    | cons y v =>
      simp only [List.map_cons, dotQ]
      rw [ih v du dv, div_mul_div_comm, div_add_div_same]

theorem normalized_dot_bound (sq : ℚ → ℚ) (u v : Vec)
    (hu : SqrtOK sq (dotQ u u)) (hv : SqrtOK sq (dotQ v v)) :
    -1 ≤ dotQ (normalizeVec sq u) (normalizeVec sq v) ∧
      dotQ (normalizeVec sq u) (normalizeVec sq v) ≤ 1 := by
  obtain ⟨ha, ha2⟩ := hu
  obtain ⟨hb, hb2⟩ := hv
  rw [normalizeVec, normalizeVec, dotQ_map_div]
  have hbound := dotQ_abs_bound u v _ _ ha hb ha2 hb2
  have hD : (0:ℚ) < (sq (dotQ u u) + 1 / 100000000) *
      (sq (dotQ v v) + 1 / 100000000) := by positivity
  have hab : sq (dotQ u u) * sq (dotQ v v) ≤
      (sq (dotQ u u) + 1 / 100000000) * (sq (dotQ v v) + 1 / 100000000) := by
    nlinarith [ha, hb]
  constructor
  · rw [le_div_iff₀ hD]
    nlinarith [hbound.1, hab]
  · rw [div_le_one hD]
    nlinarith [hbound.2, hab]

theorem argsortDesc_mem_lt (s : List ℚ) (i : Nat) (hi : i ∈ argsortDesc s) :
    i < s.length := by
  rw [argsortDesc] at hi
  exact List.mem_range.mp ((List.perm_insertionSort _ _).mem_iff.mp hi)

/- ===================== Retriever state lemmas (C9) ===================== -/

theorem add_texts_embed (sq : ℚ → ℚ) (r : Retriever) (ts : List String) :
    (r.add_texts sq ts).embed = r.embed := rfl

theorem add_texts_storedOK (sq : ℚ → ℚ) (r : Retriever) (ts : List String)
    (hgood : SqrtGood sq r.embed) (hok : storedOK sq r) :
    storedOK sq (r.add_texts sq ts) := by
  intro i hi v hv
  rw [Retriever.add_texts] at hi
  simp only [Option.some.injEq] at hi
  subst hi
  rw [SimpleIndex.add] at hv
  set idx0 := (match r.index with
    | some i => i
    | none => SimpleIndex.create
        (if (normalizeMat sq (r.embed ts)).width = 0 then 768
         else (normalizeMat sq (r.embed ts)).width)) with hidx0
  have hbase : ∀ w ∈ idx0.vecs.rows,
      ∃ u, SqrtOK sq (dotQ u u) ∧ w = normalizeVec sq u := by
    intro w hw
    rcases hri : r.index with _ | j
    · rw [hidx0, hri] at hw
      simp [SimpleIndex.create] at hw
    · rw [hidx0, hri] at hw
      exact hok j hri w hw
  by_cases hcond :
      (normalizeMat sq (r.embed ts)).width = idx0.vecs.width
  · rw [if_pos hcond] at hv
    simp only at hv
    rcases List.mem_append.mp hv with hv | hv
    · exact hbase v hv
    · simp only [normalizeMat] at hv
      obtain ⟨u, hu, rfl⟩ := List.mem_map.mp hv
      exact ⟨u, hgood ts u hu, rfl⟩
  · rw [if_neg hcond] at hv
    exact hbase v hv

theorem addAll_storedOK (sq : ℚ → ℚ) :
    ∀ (batches : List (List String)) (r : Retriever),
      SqrtGood sq r.embed → storedOK sq r →
      storedOK sq (r.addAll sq batches) := by
  intro batches
  induction batches with
  | nil => intro r _ hok; exact hok
  | cons b bs ih =>
    intro r hgood hok
    rw [Retriever.addAll, List.foldl_cons]
    exact ih (r.add_texts sq b)
      (by rw [add_texts_embed]; exact hgood)
      (add_texts_storedOK sq r b hgood hok)

theorem query_score_shape (sq : ℚ → ℚ) (r : Retriever) (q : String) (k : Nat)
    (p0 : String × ℚ) (hp : p0 ∈ r.query sq q k) :
    ∃ uq v i, r.index = some i ∧ uq ∈ (r.embed [q]).rows ∧
      v ∈ i.vecs.rows ∧ p0.2 = dotQ (normalizeVec sq uq) v := by
  rw [Retriever.query] at hp
  split at hp
  · exact absurd hp (List.not_mem_nil _)
  · rename_i i hidx
    split at hp
    · exact absurd hp (List.not_mem_nil _)
    · simp only at hp
      obtain ⟨p1, hp1, hp0⟩ := List.mem_map.mp hp
      have hsnd : p0.2 = p1.2 := by rw [← hp0]
      rw [SimpleIndex.search] at hp1
      by_cases hrows : i.vecs.rows.length = 0
      · rw [if_pos hrows] at hp1
        rcases hq0 : (normalizeMat sq (r.embed [q])).rows with _ | ⟨qv, qrest⟩
        · rw [hq0] at hp1
          simp at hp1
        · rw [hq0] at hp1
          simp at hp1
      · rw [if_neg hrows] at hp1
        rcases hq0 : (normalizeMat sq (r.embed [q])).rows with _ | ⟨qv, qrest⟩
        · rw [hq0] at hp1
          simp at hp1
        · rw [hq0] at hp1
          simp only [List.map_cons, List.getD_cons_zero] at hp1
          obtain ⟨i2, hi2, hp1e⟩ := List.mem_map.mp hp1
          have hi2m : i2 ∈ argsortDesc (i.vecs.rows.map (fun v => dotQ qv v)) :=
            List.take_subset k _ hi2
          have hlt : i2 < (i.vecs.rows.map (fun v => dotQ qv v)).length :=
            argsortDesc_mem_lt _ _ hi2m
          have hp12 : p1.2 =
              (i.vecs.rows.map (fun v => dotQ qv v)).getD i2 0 := by
            rw [← hp1e]
          rw [List.getD_eq_getElem _ _ hlt] at hp12
          have hmem : (i.vecs.rows.map (fun v => dotQ qv v))[i2] ∈
              i.vecs.rows.map (fun v => dotQ qv v) := List.getElem_mem hlt
          obtain ⟨v, hv, hveq⟩ := List.mem_map.mp hmem
          have hqv : qv ∈ (normalizeMat sq (r.embed [q])).rows := by
            rw [hq0]
            exact List.mem_cons_self _ _
          simp only [normalizeMat] at hqv
          obtain ⟨uq, huq, hqveq⟩ := List.mem_map.mp hqv
          refine ⟨uq, v, i, hidx, huq, hv, ?_⟩
          rw [hsnd, hp12, ← hveq, hqveq]

theorem similarity_shape (sq : ℚ → ℚ) (r : Retriever) (q : String) :
    r.similarity_to_nearest sq q = 0 ∨
    ∃ uq v i, r.index = some i ∧ uq ∈ (r.embed [q]).rows ∧
      v ∈ i.vecs.rows ∧
      r.similarity_to_nearest sq q = dotQ (normalizeVec sq uq) v := by
  rcases hq : r.query sq q 1 with _ | ⟨p0, rest⟩
  · left
    rw [Retriever.similarity_to_nearest, hq]
  · right
    rw [Retriever.similarity_to_nearest, hq]
    have hp0 : p0 ∈ r.query sq q 1 := by
      rw [hq]; exact List.mem_cons_self _ _
    obtain ⟨uq, v, i, h1, h2, h3, h4⟩ := query_score_shape sq r q 1 p0 hp0
    exact ⟨uq, v, i, h1, h2, h3, h4⟩

theorem addAll_embed (sq : ℚ → ℚ) :
    ∀ (batches : List (List String)) (r : Retriever),
      (r.addAll sq batches).embed = r.embed := by
  intro batches
  induction batches with
  | nil => intro r; rfl
  | cons b bs ih =>
    intro r
    rw [Retriever.addAll, List.foldl_cons]
    have h := ih (r.add_texts sq b)
    rw [Retriever.addAll] at h
    rw [h, add_texts_embed]

/-- C9 (amended): for every retriever state reachable by add_texts ingestion
from a fresh retriever, similarity_to_nearest lies in the closed interval
[-1, 1] (not [0, 1]: anti-correlated embeddings give negative scores), and it
is exactly 0 whenever the retriever is not ready.  The sq argument models the
float square root inside normalize; the hypothesis states its exactness on
the squared norms the embedding function produces. -/
theorem C9_similarity_range (sq : ℚ → ℚ) (embed : List String → NPMat)
    (batches : List (List String)) (q : String) (hgood : SqrtGood sq embed) :
    (-1 ≤ (Retriever.addAll sq ⟨none, embed⟩ batches).similarity_to_nearest sq q ∧
      (Retriever.addAll sq ⟨none, embed⟩ batches).similarity_to_nearest sq q ≤ 1) ∧
    ((Retriever.addAll sq ⟨none, embed⟩ batches).is_ready = false →
      (Retriever.addAll sq ⟨none, embed⟩ batches).similarity_to_nearest sq q = 0) := by
  have hemb : (Retriever.addAll sq ⟨none, embed⟩ batches).embed = embed :=
    addAll_embed sq batches ⟨none, embed⟩
  have hstored : storedOK sq (Retriever.addAll sq ⟨none, embed⟩ batches) :=
    addAll_storedOK sq batches ⟨none, embed⟩ hgood (by intro i hi v hv; simp at hi)
  constructor
  · rcases similarity_shape sq (Retriever.addAll sq ⟨none, embed⟩ batches) q
      with h0 | ⟨uq, v, i, hi, huq, hv, heq⟩
    · rw [h0]; norm_num
    · rw [hemb] at huq
      obtain ⟨u, hsu, rfl⟩ := hstored i hi v hv
      have hsq : SqrtOK sq (dotQ uq uq) := hgood [q] uq huq
      rw [heq]
      exact normalized_dot_bound sq uq u hsq hsu
  · intro hready
    rcases hidx : (Retriever.addAll sq ⟨none, embed⟩ batches).index with _ | i
    · simp [Retriever.similarity_to_nearest, Retriever.query, hidx]
    · simp only [Retriever.is_ready, hidx] at hready
      have hti : i.texts.isEmpty = true := by
        cases hv : i.texts.isEmpty
        · rw [hv] at hready; simp at hready
        · rfl
      simp [Retriever.similarity_to_nearest, Retriever.query, hidx, hti]

set_option maxHeartbeats 1000000 in
/-- C9 counterexample: a reachable state and query for which
similarity_to_nearest is strictly negative, refuting the [0, 1] range of the
claim (stored embedding [1, 0], query embedding [-1, 0], exact square roots
on the unit norms involved). -/
theorem C9_counterexample :
    Retriever.similarity_to_nearest (fun x => x)
      (Retriever.addAll (fun x => x)
        ⟨none, fun ts => ⟨2, ts.map (fun t => if t = "q" then [-1, 0] else [1, 0])⟩⟩
        [["a"]]) "q" < 0 := by
  norm_num [Retriever.addAll, Retriever.add_texts, Retriever.similarity_to_nearest,
    Retriever.query, SimpleIndex.add, SimpleIndex.create, SimpleIndex.search,
    normalizeMat, normalizeVec, dotQ, argsortDesc, List.insertionSort,
    List.range_succ, List.orderedInsert]

/-- C9 witness: the amended theorem applied at a concrete embedding whose
rows are [1, 0] (norm exactly 1), one ingestion batch and one query. -/
theorem C9_witness :
    -1 ≤ Retriever.similarity_to_nearest (fun x => x)
        (Retriever.addAll (fun x => x)
          ⟨none, fun ts => ⟨2, ts.map (fun _ => [1, 0])⟩⟩ [["a"]]) "b" ∧
      Retriever.similarity_to_nearest (fun x => x)
        (Retriever.addAll (fun x => x)
          ⟨none, fun ts => ⟨2, ts.map (fun _ => [1, 0])⟩⟩ [["a"]]) "b" ≤ 1 := by
  have h := C9_similarity_range (fun x => x)
    (fun ts => ⟨2, ts.map (fun _ => [1, 0])⟩) [["a"]] "b"
    (by
      intro ts v hv
      simp only [List.mem_map] at hv
      obtain ⟨t, _, rfl⟩ := hv
      constructor
      · norm_num [dotQ]
      · norm_num [dotQ])
  exact h.1

/- ===================== Claim theorems ================================== -/

theorem hierSize_pos (chunkCount n : Nat) : 0 < hierSize chunkCount n :=
  lt_of_lt_of_le one_pos (le_max_left 1 _)

theorem hierChunks_pos (chunkCount : Nat) : 0 < hierChunks chunkCount :=
  lt_of_lt_of_le one_pos (le_max_left 1 _)

/-- C5 (amended): in the hierarchical branch (hierarchical mode on and more
than 10 input items) exactly ceil(n / hierSize) chunk calls are issued —
never more than max(1, chunkCount), but possibly fewer than chunkCount —
plus exactly one merge call; chunk inputs are contiguous slices that
partition the input in original order without overlap or omission, and are
nonempty; chunk summaries are the backend results in the same original
order.  Otherwise exactly one backend call is issued over the whole
collection. -/
theorem C5_hier_summarize (f : List String → String) (hier : Bool)
    (chunkCount : Nat) (used : List String) :
    (¬(hier = true ∧ used.length > 10) →
      hierSummarize f hier chunkCount used =
        { chunkInputs := [], chunkSummaries := [], mergeCalls := 0,
          singleCalls := 1 }) ∧
    ((hier = true ∧ used.length > 10) →
      hierSummarize f hier chunkCount used =
        { chunkInputs := chunkSlices (hierSize chunkCount used.length) used,
          chunkSummaries :=
            (chunkSlices (hierSize chunkCount used.length) used).map f,
          mergeCalls := 1, singleCalls := 0 } ∧
      (chunkSlices (hierSize chunkCount used.length) used).flatten = used ∧
      (chunkSlices (hierSize chunkCount used.length) used).length =
        (used.length + hierSize chunkCount used.length - 1) /
          hierSize chunkCount used.length ∧
      (chunkSlices (hierSize chunkCount used.length) used).length ≤
        hierChunks chunkCount ∧
      (∀ c ∈ chunkSlices (hierSize chunkCount used.length) used, c ≠ [])) := by
  constructor
  · intro hno
    rw [hierSummarize, if_neg hno]
  · intro hyes
    refine ⟨by rw [hierSummarize, if_pos hyes], ?_, ?_, ?_, ?_⟩
    · exact chunkSlices_join _ (hierSize_pos _ _) used.length used (le_refl _)
    · exact chunkSlices_length _ (hierSize_pos _ _) used.length used (le_refl _)
    · rw [chunkSlices_length _ (hierSize_pos _ _) used.length used (le_refl _)]
      apply div_ceil_le _ _ _ (hierSize_pos _ _)
      have h1 : used.length ≤
          hierChunks chunkCount *
            ((used.length + hierChunks chunkCount - 1) / hierChunks chunkCount) :=
        ceil_le_mul _ _ (hierChunks_pos _)
      calc used.length ≤ hierChunks chunkCount *
            ((used.length + hierChunks chunkCount - 1) / hierChunks chunkCount) := h1
        _ ≤ hierChunks chunkCount * hierSize chunkCount used.length := by
            exact Nat.mul_le_mul_left _ (le_max_right 1 _)
        _ = hierSize chunkCount used.length * hierChunks chunkCount := by
            rw [Nat.mul_comm]
    · intro c hc
      exact chunkSlices_ne_nil _ (hierSize_pos _ _) used.length used c
        (le_refl _) hc

/-- C5 counterexample: with hierarchical mode on, chunkCount = 5 and an
input of 11 items, the code issues 4 chunk calls (size = ceil(11/5) = 3,
hence ceil(11/3) = 4 slices), not the 5 chunk calls the claim requires. -/
theorem C5_counterexample :
    (hierSummarize (fun _ => "") true 5
        (List.replicate 11 "m")).chunkInputs.length = 4 ∧
    (hierSummarize (fun _ => "") true 5
        (List.replicate 11 "m")).chunkInputs.length ≠ 5 := by
  constructor <;> decide

/-- C5 witness: the amended theorem applied on both sides of the threshold
(1 item gives the single-call trace; 11 items give a partitioning chunk
trace). -/
theorem C5_witness :
    hierSummarize (fun _ => "s") true 3 ["a"] =
      { chunkInputs := [], chunkSummaries := [], mergeCalls := 0,
        singleCalls := 1 } ∧
    (chunkSlices (hierSize 3 11) (List.replicate 11 "m")).flatten =
      List.replicate 11 "m" := by
  constructor
  · exact (C5_hier_summarize (fun _ => "s") true 3 ["a"]).1 (by simp)
  · have h := ((C5_hier_summarize (fun _ => "s") true 3
      (List.replicate 11 "m")).2 (by constructor <;> decide)).2.1
    simpa using h

/-- C4: the anti-regurgitation check of persona_speak.  When the retriever is
ready and the similarity of the first draft exceeds the fixed 0.92 threshold,
exactly one retry call is issued whose prompt is the first prompt with the
paraphrase instruction appended (an instruction the first prompt does not
contain, by hypothesis), and the retry result is returned unconditionally —
two generation calls in total, no similarity check on the retry.  When the
similarity does not exceed the threshold, or the retriever is not ready, the
single initial call is the only one. -/
theorem C4_anti_regurgitation (gen1 gen2 : String → String)
    (simFn : String → ℚ) (p : String)
    (hclean : listContains p.data retryInstruction.data = false) :
    (simFn (gen1 p) > 92 / 100 →
      speakGenerate gen1 gen2 simFn true p =
        (gen2 (p ++ retryInstruction), [p, p ++ retryInstruction]) ∧
      listContains (p ++ retryInstruction).data retryInstruction.data = true ∧
      listContains p.data retryInstruction.data = false) ∧
    (¬(simFn (gen1 p) > 92 / 100) →
      speakGenerate gen1 gen2 simFn true p = (gen1 p, [p])) ∧
    speakGenerate gen1 gen2 simFn false p = (gen1 p, [p]) := by
  refine ⟨?_, ?_, ?_⟩
  · intro hhi
    refine ⟨?_, ?_, hclean⟩
    · rw [speakGenerate]
      simp only [if_true]
      rw [if_pos hhi]
    · rw [str_data_append]
      exact listContains_suffix _ _
  · intro hlo
    rw [speakGenerate]
    simp only [if_true]
    rw [if_neg hlo]
  · rw [speakGenerate]
    simp only [if_false]
    rw [if_neg (by norm_num)]

/-- C4 witness: the theorem applied to a stub backend returning a snippet
with similarity 1 (forcing the retry) on the empty prompt. -/
theorem C4_witness :
    speakGenerate (fun _ => "S") (fun x => x) (fun _ => 1) true "" =
      ("" ++ retryInstruction, ["", "" ++ retryInstruction]) ∧
    speakGenerate (fun _ => "S") (fun x => x) (fun _ => (1 : ℚ) / 2) true "" =
      ("S", [""]) := by
  constructor
  · exact ((C4_anti_regurgitation (fun _ => "S") (fun x => x) (fun _ => 1) ""
      (by decide)).1 (by norm_num)).1
  · exact (C4_anti_regurgitation (fun _ => "S") (fun x => x)
      (fun _ => (1 : ℚ) / 2) "" (by decide)).2.1 (by norm_num)

/-- C3 (corrected): input message texts are scrubbed before trait extraction
and before indexing — every message-derived string reaching
extract_basic_traits, extract_rich_traits or Retriever.add_texts in
persona_create and persona_update matches neither PII pattern.  The
correction: strings derived from vision-model captions reach persona_update
indexing (and extraction) without scrubbing, so the property holds for the
cleaned message texts but not for every indexed string. -/
theorem C3_scrubbed_message_flow (fetched captions : List String)
    (snippets allowed : Nat) :
    (∀ s ∈ extractInputs fetched, noPII s) ∧
    (∀ s ∈ createIndexTexts snippets allowed fetched, noPII s) ∧
    (∀ s ∈ updateToAdd fetched captions,
      s ∈ (captions.take 20).map imgTag ∨ noPII s) := by
  refine ⟨?_, ?_, ?_⟩
  · intro s hs
    exact clean_texts_noPII fetched s hs
  · intro s hs
    exact clean_texts_noPII fetched s
      (pyLastSlice_subset _ _ (pyLastSlice_subset _ _ hs))
  · intro s hs
    rcases List.mem_append.mp hs with hs | hs
    · right
      exact clean_texts_noPII fetched s (pyLastSlice_subset _ _ hs)
    · left
      exact hs

/-- C3 counterexample: a vision caption containing a ten-digit sequence
reaches the texts passed to Retriever.add_texts by persona_update without
redaction, refuting the claim that every string reaching add_texts is free
of the PII patterns. -/
theorem C3_counterexample :
    updateToAdd [] ["call 1234567890 now"] = ["[img] call 1234567890 now"] ∧
    hasM tenAt none ("[img] call 1234567890 now").data = true := by
  constructor <;> decide

/-- C3 witness: the amended theorem applied to one concrete fetched message
containing an SSN-shaped pattern; the cleaned text that reaches extraction is
the redacted string and is PII-free. -/
theorem C3_witness :
    "a [REDACTED]" ∈ extractInputs ["  a 123-45-6789 "] ∧
    noPII "a [REDACTED]" := by
  refine ⟨by decide, ?_⟩
  exact (C3_scrubbed_message_flow ["  a 123-45-6789 "] [] 0 0).1
    "a [REDACTED]" (by decide)

/-- C10: clean_texts is an order-preserving filter-map — it returns the
stripped-and-scrubbed versions of exactly those inputs that are non-empty
after stripping, in input order, and never outputs an empty string. -/
theorem C10_clean_texts_filter_map (ts : List String) :
    clean_texts ts =
      (ts.filter (fun t => !(pyStrip t == ""))).map
        (fun t => scrub_pii (pyStrip t)) ∧
    ∀ s ∈ clean_texts ts, s ≠ "" := by
  constructor
  · rw [clean_texts_eq]
    congr 1
    apply List.filter_congr
    intro t _
    by_cases h : pyStrip t = ""
    · have h2 : scrub_pii (pyStrip t) = "" := (scrub_pii_eq_empty _).mpr h
      rw [h2, h]
    · have h2 : scrub_pii (pyStrip t) ≠ "" := fun hc =>
        h ((scrub_pii_eq_empty (pyStrip t)).mp hc)
      simp [h, h2]
  · intro s hs
    obtain ⟨t, _, _, hne⟩ := clean_texts_mem ts s hs
    exact hne

/-- C10 witness: the theorem applied to a concrete input list with an
all-whitespace entry (dropped), surrounding whitespace (stripped) and a PII
pattern (scrubbed), in order. -/
theorem C10_witness :
    clean_texts ["  hi ", " ", "x 1234567890"] =
      ((["  hi ", " ", "x 1234567890"].filter
          (fun t => !(pyStrip t == ""))).map
        (fun t => scrub_pii (pyStrip t))) ∧
    "hi" ≠ "" := by
  constructor
  · exact (C10_clean_texts_filter_map ["  hi ", " ", "x 1234567890"]).1
  · exact (C10_clean_texts_filter_map ["  hi ", " ", "x 1234567890"]).2
      "hi" (by decide)

/-- C8: with no index or an index holding no texts, is_ready is false,
query returns the empty sequence (not an error), similarity_to_nearest
returns exactly 0, and SimpleIndex.search on an index with no stored rows
returns one empty result row per query. -/
theorem C8_empty_behavior (r : Retriever) (sq : ℚ → ℚ)
    (h : r.index = none ∨ ∃ i, r.index = some i ∧ i.texts = []) :
    r.is_ready = false ∧
    (∀ q k, r.query sq q k = []) ∧
    (∀ q, r.similarity_to_nearest sq q = 0) ∧
    (∀ (idx : SimpleIndex) (qs : List Vec) (k : Nat), idx.vecs.rows = [] →
      idx.search qs k = qs.map (fun _ => [])) := by
  have hq : ∀ q k, r.query sq q k = [] := by
    intro q k
    rcases h with hn | ⟨i, hi, hti⟩
    · simp [Retriever.query, hn]
    · simp [Retriever.query, hi, hti]
  refine ⟨?_, hq, ?_, ?_⟩
  · rcases h with hn | ⟨i, hi, hti⟩
    · simp [Retriever.is_ready, hn]
    · simp [Retriever.is_ready, hi, hti]
  · intro q
    rw [Retriever.similarity_to_nearest, hq q 1]
  · intro idx qs k hrows
    rw [SimpleIndex.search, if_pos (by rw [hrows]; rfl)]

/-- C8 witness: the theorem applied to a fresh retriever with no index and
to a freshly created empty index searched with one query. -/
theorem C8_witness :
    Retriever.is_ready ⟨none, fun _ => ⟨0, []⟩⟩ = false ∧
    Retriever.query (fun x => x) ⟨none, fun _ => ⟨0, []⟩⟩ "hello" 5 = [] ∧
    Retriever.similarity_to_nearest (fun x => x)
      ⟨none, fun _ => ⟨0, []⟩⟩ "hello" = 0 ∧
    SimpleIndex.search (SimpleIndex.create 3) [[1, 2, 3]] 2 = [[]] := by
  have h := C8_empty_behavior ⟨none, fun _ => ⟨0, []⟩⟩ (fun x => x) (Or.inl rfl)
  refine ⟨h.1, h.2.1 "hello" 5, h.2.2.1 "hello", ?_⟩
  rw [h.2.2.2 (SimpleIndex.create 3) [[1, 2, 3]] 2 rfl]
  rfl

/-- C6: the guard acquires the global semaphore before the per-channel lock
and releases in the reverse order; on exit the channel-lock release happens
exactly once when the lock is attached and held (and is skipped, without
error, if the lock was already released), the semaphore release happens
exactly once unconditionally, the exit behavior is independent of the
exception argument (normal return, error and cancellation exits are
identical), and the semaphore count is restored to its pre-acquisition
value. -/
theorem C6_guard_protocol (g : SpeakGuard) (s s1 : SyncState)
    (evs : List GEvent) (exc exc2 : Option String)
    (h : g.aenter s = some (s1, evs)) :
    (evs = if g.useLock then [GEvent.semAcq, GEvent.lockAcq]
           else [GEvent.semAcq]) ∧
    (g.aexit exc s1).2 =
      (if g.useLock then [GEvent.lockRel] else []) ++ [GEvent.semRel] ∧
    (g.aexit exc s1).2.count GEvent.semRel = 1 ∧
    (g.aexit exc s1).2.count GEvent.lockRel = (if g.useLock then 1 else 0) ∧
    g.aexit exc s1 = g.aexit exc2 s1 ∧
    (g.aexit exc s1).1.semAvail = s.semAvail ∧
    (g.aexit exc { s1 with lockHeld := false }).2 = [GEvent.semRel] := by
  rw [SpeakGuard.aenter] at h
  by_cases hs0 : s.semAvail = 0
  · rw [if_pos hs0] at h
    exact absurd h (by simp)
  · rw [if_neg hs0] at h
    by_cases hul : g.useLock = true
    · rw [if_pos hul] at h
      by_cases hlh : s.lockHeld = true
      · rw [if_pos hlh] at h
        exact absurd h (by simp)
      · rw [if_neg hlh] at h
        simp only [Option.some.injEq, Prod.mk.injEq] at h
        obtain ⟨hstate, hevs⟩ := h
        subst hstate
        subst hevs
        refine ⟨by rw [if_pos hul], ?_, ?_, ?_, ?_, ?_, ?_⟩ <;>
          simp [SpeakGuard.aexit, hul] <;> omega
    · rw [if_neg hul] at h
      simp only [Option.some.injEq, Prod.mk.injEq] at h
      obtain ⟨hstate, hevs⟩ := h
      subst hstate
      subst hevs
      have hul2 : g.useLock = false := by
        cases hv : g.useLock
        · rfl
        · exact absurd hv hul
      refine ⟨by rw [if_neg hul], ?_, ?_, ?_, ?_, ?_, ?_⟩ <;>
        simp [SpeakGuard.aexit, hul2] <;> omega

/-- C6 witness: the theorem applied to a lock-attached guard on a state with
two free permits and a free channel lock. -/
theorem C6_witness :
    SpeakGuard.aenter ⟨true⟩ ⟨2, false⟩ =
      some (⟨1, true⟩, [GEvent.semAcq, GEvent.lockAcq]) ∧
    (SpeakGuard.aexit ⟨true⟩ none ⟨1, true⟩).2 =
      [GEvent.lockRel, GEvent.semRel] ∧
    (SpeakGuard.aexit ⟨true⟩ none ⟨1, true⟩).1.semAvail = 2 := by
  have h := C6_guard_protocol ⟨true⟩ ⟨2, false⟩ ⟨1, true⟩
    [GEvent.semAcq, GEvent.lockAcq] none (some "err") (by decide)
  refine ⟨by decide, ?_, h.2.2.2.2.2.1⟩
  rw [h.2.1]
  rfl

/-- C1 (code bug): np.savez_compressed appends the .npz extension to the
path, but load checks for the unsuffixed path, so for any path not already
ending in .npz a save is invisible to the subsequent load: loading right
after saving behaves exactly as if nothing had been saved (and on a fresh
store returns none rather than the saved index).  The payload is in fact
retrievable under the mangled name, confirming the filename mismatch is the
only obstruction to the claimed round trip. -/
theorem C1_save_load_mismatch (idx : SimpleIndex) (fs : FS) (path : String)
    (hnpz : endsNpz path.data = false) :
    SimpleIndex.load (idx.save path fs) path = SimpleIndex.load fs path ∧
    SimpleIndex.load ([] : FS) path = none ∧
    SimpleIndex.load (idx.save path fs) (path ++ ".npz") =
      some { dim := idx.vecs.width, vecs := idx.vecs, texts := idx.texts } := by
  have hk : npzName path = path ++ ".npz" := by
    rw [npzName, if_neg (by simp [hnpz])]
  have hne : path ≠ path ++ ".npz" := by
    intro he
    have hlen := congrArg (fun s => s.data.length) he
    simp [str_data_append] at hlen
  have hbeq : (path == path ++ ".npz") = false := by
    simp [hne]
  refine ⟨?_, rfl, ?_⟩
  · rw [SimpleIndex.save, hk, SimpleIndex.load, SimpleIndex.load]
    rw [List.lookup_cons]
    simp [hbeq]
  · rw [SimpleIndex.save, hk, SimpleIndex.load]
    rw [List.lookup_cons]
    simp

/-- C1 witness: the code-bug theorem applied at the path shape the
repository uses (uid.idx): the save-then-load round trip yields none on a
fresh store. -/
theorem C1_witness :
    SimpleIndex.load ((SimpleIndex.create 2).save "7.idx" []) "7.idx" =
      none := by
  have h := C1_save_load_mismatch (SimpleIndex.create 2) [] "7.idx"
    (by decide)
  rw [h.1]
  rfl

/-- C2 (amended): add performs no explicit validation.  A width mismatch
makes the underlying np.vstack raise, which is fatal to that call only and
leaves the index unchanged (a shape error, not a dedicated
DimensionMismatch); a length mismatch between vectors and texts is not
checked at all: the call succeeds, appends both and silently breaks the
len(vecs) = len(texts) invariant. -/
theorem C2_add_behavior (idx : SimpleIndex) (m : NPMat) (texts : List String)
    (hinv : idx.dim = idx.vecs.width) :
    (m.width ≠ idx.dim → idx.add m texts = (idx, some vstackErr)) ∧
    (m.width = idx.dim → idx.add m texts =
      ({ dim := idx.dim,
         vecs := ⟨idx.vecs.width, idx.vecs.rows ++ m.rows⟩,
         texts := idx.texts ++ texts }, none)) := by
  constructor
  · intro hne
    rw [SimpleIndex.add, if_neg (by rw [← hinv]; exact hne)]
  · intro he
    rw [SimpleIndex.add, if_pos (by rw [← hinv]; exact he)]

/-- C2 counterexample: adding one vector with two texts does not fail with
LengthMismatch (or at all): the call succeeds and leaves the index with one
stored vector against two stored texts, violating the invariant the claim
says is protected. -/
theorem C2_counterexample :
    (SimpleIndex.add (SimpleIndex.create 2) ⟨2, [[1, 0]]⟩ ["a", "b"]).2 =
      none ∧
    (SimpleIndex.add (SimpleIndex.create 2)
        ⟨2, [[1, 0]]⟩ ["a", "b"]).1.vecs.rows.length = 1 ∧
    (SimpleIndex.add (SimpleIndex.create 2)
        ⟨2, [[1, 0]]⟩ ["a", "b"]).1.texts.length = 2 := by
  refine ⟨rfl, rfl, rfl⟩

/-- C2 witness: the amended theorem applied to a width mismatch (3 against
2, failing and preserving the index) and to a matching add. -/
theorem C2_witness :
    SimpleIndex.add (SimpleIndex.create 2) ⟨3, []⟩ [] =
      (SimpleIndex.create 2, some vstackErr) ∧
    SimpleIndex.add (SimpleIndex.create 2) ⟨2, [[1, 0]]⟩ ["a"] =
      ({ dim := 2, vecs := ⟨2, [[1, 0]]⟩, texts := ["a"] }, none) := by
  constructor
  · exact (C2_add_behavior (SimpleIndex.create 2) ⟨3, []⟩ [] rfl).1
      (by decide)
  · have h := (C2_add_behavior (SimpleIndex.create 2) ⟨2, [[1, 0]]⟩ ["a"]
      rfl).2 rfl
    simpa [SimpleIndex.create] using h
